/-
Verification of the jobs-ai job-collection and scoring pipeline.

This file shallowly embeds the Python modules of the repository that the
claims concern, and proves/refutes each claim against the embedding:

  * src/jobsai/utils/normalization.py   (normalize_list, _normalize_token,
    normalize_parsed)                   — JobsAI.normalize_list, …
  * src/jobsai/config/schemas.py        (SKILL_ALIAS_MAP)
  * src/jobsai/utils/queries.py         (build_queries)
  * src/jobsai/agents/searcher.py       (SearcherService._deduplicate_jobs)
  * src/jobsai/agents/scorer.py         (ScorerService._score_job_against_tech_stack)
  * agents/scorer.py (older layout)     (ScorerAgent._job_identity, _load_job_listings)
  * src/jobsai/utils/scrapers/duunitori.py and jobly.py
    (_parse_job_card, _fetch_page, scrape_duunitori, scrape_jobly)

Modelling conventions:
  * Python strings are Lean `String`s; character-level behaviour
    (lower/upper-casing, whitespace, `isupper`) is modelled at ASCII
    precision, matching CPython semantics on ASCII data.
  * Python dictionaries with a fixed field set become structures; a field
    whose key may be absent (or hold `None`) is an `Option`.
  * Python `float` arithmetic in the scorer is modelled exactly as IEEE-754
    binary64 round-to-nearest-even over `ℚ` (`fpRound` below): CPython's
    `int / int` true division and `float * int-literal` multiplication are
    correctly rounded, so the model is exact.
  * Network effects are modelled by passing the sequence of fetch outcomes
    (per attempt / per page) as explicit input data.
-/
import Mathlib

namespace JobsAI

/-! ### ASCII character primitives (CPython `str` semantics on ASCII data) -/

/-- Python whitespace characters stripped by `str.strip()` (ASCII range):
space, tab, newline, carriage return, vertical tab, form feed. -/
def pyIsSpace (c : Char) : Bool :=
  decide (c.toNat = 32 ∨ c.toNat = 9 ∨ c.toNat = 10 ∨ c.toNat = 13 ∨
          c.toNat = 11 ∨ c.toNat = 12)

/-- ASCII uppercase letter test, as used by Python `str.isupper`/casing. -/
def pyIsUpperCh (c : Char) : Bool := decide (65 ≤ c.toNat ∧ c.toNat ≤ 90)

/-- ASCII lowercase letter test. -/
def pyIsLowerCh (c : Char) : Bool := decide (97 ≤ c.toNat ∧ c.toNat ≤ 122)

/-- Python per-character lowercasing (ASCII): `A`–`Z` shift by +32. -/
def pyToLowerCh (c : Char) : Char :=
  if 65 ≤ c.toNat ∧ c.toNat ≤ 90 then Char.ofNat (c.toNat + 32) else c

/-- Python per-character uppercasing (ASCII): `a`–`z` shift by −32. -/
def pyToUpperCh (c : Char) : Char :=
  if 97 ≤ c.toNat ∧ c.toNat ≤ 122 then Char.ofNat (c.toNat - 32) else c

/-- `str.lower()` on the character list. -/
def pyLowerL (l : List Char) : List Char := l.map pyToLowerCh

/-- `str.strip()` on the character list: drop leading and trailing whitespace. -/
def pyStripL (l : List Char) : List Char :=
  ((l.dropWhile pyIsSpace).reverse.dropWhile pyIsSpace).reverse

/-- `str.capitalize()` on the character list: first character uppercased,
all remaining characters lowercased (CPython semantics). -/
def pyCapitalizeL : List Char → List Char
  | [] => []
  | c :: t => pyToUpperCh c :: pyLowerL t

/-- Python `str.isupper()`: at least one cased character, and no cased
character is lowercase (ASCII model). -/
def pyIsUpperStrL (l : List Char) : Bool :=
  l.any (fun c => pyIsUpperCh c || pyIsLowerCh c) && l.all (fun c => !(pyIsLowerCh c))

/-- `str.lower()`. -/
def pyLower (s : String) : String := ⟨pyLowerL s.data⟩

/-- `str.strip()`. -/
def pyStrip (s : String) : String := ⟨pyStripL s.data⟩

/-- `str.capitalize()`. -/
def pyCapitalize (s : String) : String := ⟨pyCapitalizeL s.data⟩

/-- `str.isupper()`. -/
def pyIsUpperStr (s : String) : Bool := pyIsUpperStrL s.data

/-- `any(c.isupper() for c in s)` — the capitalization heuristic test in
`_normalize_token`. -/
def pyAnyUpper (s : String) : Bool := s.data.any pyIsUpperCh

/-! ### Normalization module — src/jobsai/utils/normalization.py and the
alias table from src/jobsai/config/schemas.py -/

/-- `SKILL_ALIAS_MAP` from src/jobsai/config/schemas.py (lines 20–32),
in source order. -/
def SKILL_ALIAS_MAP : List (String × String) :=
  [("py", "Python"), ("python3", "Python"), ("python", "Python"),
   ("js", "JavaScript"), ("node", "Node.js"), ("nodejs", "Node.js"),
   ("reactjs", "React"), ("fastapi", "FastAPI"), ("flask", "Flask"),
   ("postgres", "PostgreSQL"), ("sql", "SQL")]

/-- Python `dict` key lookup, modelled on an association list. -/
def lookupAssoc : List (String × String) → String → Option String
  | [], _ => none
  | (k, v) :: r, s => if s = k then some v else lookupAssoc r s

/-- Body of `_normalize_token` after the strip/empty guard: alias lookup on
the lowercased token, then the capitalization rules.  The `isupper` test is
applied to the *lowercased* token, exactly as in the source
(`if token_lowercase.isupper(): return token`). -/
def normTokenCore (t1 : String) : String :=
  match lookupAssoc SKILL_ALIAS_MAP (pyLower t1) with
  | some v => v
  | none =>
    if pyIsUpperStr (pyLower t1) then t1
    else if pyAnyUpper t1 then t1 else pyCapitalize t1

/-- `_normalize_token` from src/jobsai/utils/normalization.py (lines 159–179):
the token is stripped first, a blank result is returned as-is, otherwise the
alias/capitalization core runs on the stripped token. -/
def normalize_token (t : String) : String :=
  if pyStrip t = "" then pyStrip t else normTokenCore (pyStrip t)

/-- "Capitalize only the first letter" (the claim's wording), leaving the
remaining characters untouched. -/
def pyCapFirstL : List Char → List Char
  | [] => []
  | c :: t => pyToUpperCh c :: t

/-- String version of `pyCapFirstL`. -/
def pyCapFirst (s : String) : String := ⟨pyCapFirstL s.data⟩

/-- Specification-side token normalizer, phrased exactly as the spec
describes `_normalize_token`: trim; blank → empty; alias hit on the
lowercased token → canonical value; entirely-uppercase token → unchanged;
any uppercase letter → unchanged; otherwise capitalize only the first
letter. -/
def normTokenSpec (t : String) : String :=
  if pyStrip t = "" then ""
  else
    match lookupAssoc SKILL_ALIAS_MAP (pyLower (pyStrip t)) with
    | some v => v
    | none =>
      if pyIsUpperStr (pyStrip t) then pyStrip t
      else if pyAnyUpper (pyStrip t) then pyStrip t
      else pyCapFirst (pyStrip t)

/-- The loop of `normalize_list`: accumulate normalized tokens, skipping
empty results and results already in `seen`. -/
def normListGo (seen : List String) : List String → List String
  | [] => []
  | x :: r =>
    let v := normalize_token x
    if v ≠ "" ∧ v ∉ seen then v :: normListGo (v :: seen) r
    else normListGo seen r

/-- `normalize_list` from src/jobsai/utils/normalization.py (lines 100–122),
restricted to string items (non-strings are skipped by the source and are
not representable in the `List String` model). -/
def normalize_list (items : List String) : List String := normListGo [] items

/-! ### Query builder — src/jobsai/utils/queries.py -/

/-- Lexicographic comparison by code point on character lists — the order
Python's `sorted` uses on strings. -/
def lexLeCh : List Char → List Char → Bool
  | [], _ => true
  | _ :: _, [] => false
  | a :: as, b :: bs =>
    if a.toNat < b.toNat then true
    else if b.toNat < a.toNat then false
    else lexLeCh as bs

/-- Lexicographic string order (Python `sorted` order). -/
def pyStrLe (a b : String) : Prop := lexLeCh a.data b.data = true

instance : DecidableRel pyStrLe := fun a b => by unfold pyStrLe; infer_instance

theorem lexLeCh_total (l m : List Char) : lexLeCh l m = true ∨ lexLeCh m l = true := by
  induction l generalizing m with
  | nil => exact Or.inl rfl
  | cons a as ih =>
    cases m with
    | nil => exact Or.inr rfl
    | cons b bs =>
      rcases Nat.lt_trichotomy a.toNat b.toNat with h | h | h
      · exact Or.inl (by simp [lexLeCh, h])
      · have hba : ¬b.toNat < a.toNat := by omega
        have hab : ¬a.toNat < b.toNat := by omega
        rcases ih bs with hc | hc
        · exact Or.inl (by simp [lexLeCh, hab, hba, hc])
        · exact Or.inr (by simp [lexLeCh, hab, hba, hc])
      · exact Or.inr (by simp [lexLeCh, h])

theorem lexLeCh_trans {l m k : List Char} (h1 : lexLeCh l m = true)
    (h2 : lexLeCh m k = true) : lexLeCh l k = true := by
  induction l generalizing m k with
  | nil => rfl
  | cons a as ih =>
    cases m with
    | nil => simp [lexLeCh] at h1
    | cons b bs =>
      cases k with
      | nil => simp [lexLeCh] at h2
      | cons c cs =>
        simp only [lexLeCh] at h1 h2 ⊢
        rcases Nat.lt_trichotomy a.toNat b.toNat with hab | hab | hab
        · rcases Nat.lt_trichotomy b.toNat c.toNat with hbc | hbc | hbc
          · simp [show a.toNat < c.toNat by omega]
          · simp [show a.toNat < c.toNat by omega]
          · simp [hbc, show ¬b.toNat < c.toNat by omega] at h2
        · rcases Nat.lt_trichotomy b.toNat c.toNat with hbc | hbc | hbc
          · simp [show a.toNat < c.toNat by omega]
          · simp only [show ¬a.toNat < c.toNat by omega, if_false,
              show ¬c.toNat < a.toNat by omega] at *
            simp only [hab, lt_irrefl, if_false, if_neg (lt_irrefl _)] at h1
            simp only [hbc, lt_irrefl, if_false, if_neg (lt_irrefl _)] at h2
            exact ih h1 h2
          · simp [hbc, show ¬b.toNat < c.toNat by omega] at h2
        · simp [hab, show ¬a.toNat < b.toNat by omega] at h1

instance : IsTotal String pyStrLe := ⟨fun a b => lexLeCh_total a.data b.data⟩

instance : IsTrans String pyStrLe := ⟨fun _ _ _ => lexLeCh_trans⟩

/-- The three skill-profile fields `build_queries` reads (other fields are
unused by the function). -/
structure QueryProfile where
  core_languages : List String
  agentic_ai_experience : List String
  ai_ml_experience : List String

/-- `build_queries` from src/jobsai/utils/queries.py (lines 13–79).
The Python `set` accumulation followed by `sorted(...)` is modelled as
duplicate removal followed by a sort by the string order (both enumerate
the set of generated queries in increasing lexicographic order). -/
def build_queries (p : QueryProfile) : List String :=
  let langQs := p.core_languages.flatMap fun lang =>
    let l := pyLower lang
    [l ++ " developer", "junior " ++ l ++ " developer", l ++ " engineer"]
  let agenticQs := p.agentic_ai_experience.flatMap fun tool =>
    let t := pyLower tool
    [t, t ++ " developer"]
  let aiMlQs : List String :=
    if p.ai_ml_experience = [] then []
    else ["ai engineer", "junior ai engineer", "machine learning engineer", "ml engineer"]
  let fallbackQs : List String :=
    ["junior software developer", "junior full stack developer", "entry level developer"]
  let specialQs : List String := ["llm engineer", "agentic ai"]
  ((langQs ++ agenticQs ++ aiMlQs ++ fallbackQs ++ specialQs).dedup).insertionSort pyStrLe

/-! ### Profile normalization of `experience_level` —
src/jobsai/utils/normalization.py (lines 76–90) -/

/-- An input `experience_level` dictionary: keys mapped to an integer or to
`None` (Python `dict.get` also returns `None` for an absent key, which the
lookup below reproduces). -/
abbrev ExpDict : Type := List (String × Option Int)

/-- Python `d.get(k)`: `None` for an absent key or a stored `None`. -/
def expGet (d : ExpDict) (k : String) : Option Int :=
  match List.lookup k d with
  | none => none
  | some v => v

/-- Python `x or 0` on an int-or-None value: `None` and `0` are falsy. -/
def pyOrZero : Option Int → Int
  | none => 0
  | some n => n

/-- Python `a or b or 0` on int-or-None values (`a` wins iff it is truthy,
i.e. a non-`None`, non-zero int). -/
def pyOrOrZero (a b : Option Int) : Int :=
  match a with
  | some n => if n = 0 then pyOrZero b else n
  | none => pyOrZero b

/-- The `experience_level` normalization step of `normalize_parsed`
(src/jobsai/utils/normalization.py lines 76–90): a fresh fixed-key dict. -/
def normExperience (d : ExpDict) : List (String × Int) :=
  [("Python", pyOrZero (expGet d "Python")),
   ("JavaScript", pyOrZero (expGet d "JavaScript")),
   ("Agentic AI", pyOrOrZero (expGet d "Agentic AI") (expGet d "Agentic_Ai")),
   ("AI/ML", pyOrOrZero (expGet d "AI/ML") (expGet d "AI_ML"))]

/-- `normalize_parsed` on the `experience_level` field: an absent field is
first defaulted to the all-zero dict (the key-presence loop, lines 50–59),
then normalized. -/
def normParsedExperience (e : Option ExpDict) : List (String × Int) :=
  match e with
  | none => normExperience
      [("Python", some 0), ("JavaScript", some 0), ("Agentic AI", some 0), ("AI/ML", some 0)]
  | some d => normExperience d

/-! ### Collector deduplication — src/jobsai/agents/searcher.py (lines 148–174) -/

/-- The part of a collected job record that `_deduplicate_jobs` inspects,
plus a payload distinguishing otherwise-equal records. `url` is `none` when
the key is absent (`job.get("url")` then returns `None`). -/
structure CollJob where
  url : Option String
  payload : String
deriving DecidableEq

/-- Python truthiness of `job.get("url")`: a present, non-empty string. -/
def urlTruthy (u : Option String) : Prop := ∃ s, u = some s ∧ s ≠ ""

instance (u : Option String) : Decidable (urlTruthy u) := by
  unfold urlTruthy
  match u with
  | none => exact isFalse (by simp)
  | some s => exact decidable_of_iff (s ≠ "") (by simp)

/-- The loop of `_deduplicate_jobs`, with the `seen_urls` set as a list. -/
def dedupJobsGo (seen : List String) : List CollJob → List CollJob
  | [] => []
  | j :: r =>
    match j.url with
    | none => dedupJobsGo seen r
    | some u =>
      if u ≠ "" ∧ u ∉ seen then j :: dedupJobsGo (u :: seen) r
      else dedupJobsGo seen r

/-- `SearcherService._deduplicate_jobs` (src/jobsai/agents/searcher.py,
lines 148–174). -/
def deduplicate_jobs (jobs : List CollJob) : List CollJob := dedupJobsGo [] jobs

/-- Specification-side deduplication, following the spec's words: iterate in
original order, keep a record exactly when its `url` is non-blank and no
previously iterated record has the same `url`. -/
def dedupSpecGo (prev : List CollJob) : List CollJob → List CollJob
  | [] => []
  | j :: r =>
    if urlTruthy j.url ∧ ∀ p ∈ prev, p.url ≠ j.url then j :: dedupSpecGo (prev ++ [j]) r
    else dedupSpecGo (prev ++ [j]) r

/-- Top-level spec-side deduplication. -/
def dedupSpec (jobs : List CollJob) : List CollJob := dedupSpecGo [] jobs

/-! ### Fallback job identity — agents/scorer.py (older layout, lines 99–136) -/

/-- The fields `ScorerAgent._job_identity` reads; `none` models an absent
key (`job.get(k)` then returns `None`, and `(… or "")` turns it into `""`). -/
structure RawJob where
  url : Option String
  title : Option String
  query_used : Option String
  description_snippet : Option String
deriving DecidableEq

/-- `ScorerAgent._job_identity` (agents/scorer.py lines 109–136): the
trimmed `url` if non-empty, otherwise the lowercased trimmed
`title`/`query_used`/`description_snippet[:80]` joined with `"|"`, or `""`
when all three are empty. -/
def jobIdentity (j : RawJob) : String :=
  let url := pyStrip (j.url.getD "")
  if url ≠ "" then url
  else
    let t := pyLower (pyStrip (j.title.getD ""))
    let q := pyLower (pyStrip (j.query_used.getD ""))
    let s := pyLower (pyStrip (j.description_snippet.getD ""))
    if t = "" ∧ q = "" ∧ s = "" then ""
    else t ++ "|" ++ q ++ "|" ++ (⟨s.data.take 80⟩ : String)

/-- The deduplication loop of `ScorerAgent._load_job_listings`
(agents/scorer.py lines 99–107): keep a job iff its fingerprint is
non-empty and unseen. -/
def scorerDedupGo (seen : List String) : List RawJob → List RawJob
  | [] => []
  | j :: r =>
    let fp := jobIdentity j
    if fp ≠ "" ∧ fp ∉ seen then j :: scorerDedupGo (fp :: seen) r
    else scorerDedupGo seen r

/-- Fingerprint-based deduplication over loaded raw jobs. -/
def scorerDedup (jobs : List RawJob) : List RawJob := scorerDedupGo [] jobs

/-! ### IEEE-754 binary64 model over ℚ

CPython floats are binary64.  `int / int` true division and
`float * int` multiplication are correctly rounded, so
`int(m / n * 100)` is exactly `pyInt (fpRound (fpRound (m / n) * 100))`
in the model below. -/

/-- Number of binary digits of `n` (fuel-based binary recursion; the fuel
`f` suffices whenever `n ≤ f`). `bitsAux f 0 = 0`, `bitsAux f 1 = 1`. -/
def bitsAux : ℕ → ℕ → ℕ
  | 0, _ => 0
  | f + 1, n => if n ≤ 1 then n else bitsAux f (n / 2) + 1

/-- Number of binary digits of `n`: for `n ≥ 1`,
`2 ^ (nbits n - 1) ≤ n < 2 ^ nbits n`. -/
def nbits (n : ℕ) : ℕ := bitsAux n n

/-- Binary exponent of a positive rational: the unique `e` with
`2 ^ e ≤ q < 2 ^ (e + 1)` (meaningful only for `q > 0`). -/
def expo (q : ℚ) : ℤ :=
  let d : ℤ := (nbits q.num.natAbs : ℤ) - (nbits q.den : ℤ)
  if q < 2 ^ d then d - 1 else d

/-- Exponent of the unit in the last place of a binary64 number of
magnitude `q`: 52 fractional mantissa bits, subnormal floor at `2⁻¹⁰⁷⁴`. -/
def ulp (q : ℚ) : ℤ := max (expo q - 52) (-1074)

/-- Round to the nearest integer, ties to even. -/
def roundNE (x : ℚ) : ℤ :=
  if x - ⌊x⌋ < 1 / 2 then ⌊x⌋
  else if 1 / 2 < x - ⌊x⌋ then ⌊x⌋ + 1
  else if ⌊x⌋ % 2 = 0 then ⌊x⌋ else ⌊x⌋ + 1

/-- Round a positive rational to the binary64 grid (round to nearest,
ties to even). -/
def fpPos (q : ℚ) : ℚ := (roundNE (q / 2 ^ ulp q) : ℚ) * 2 ^ ulp q

/-- Binary64 rounding of a rational (no overflow modelling; every value in
this development stays far below the overflow threshold). -/
def fpRound (q : ℚ) : ℚ :=
  if 0 < q then fpPos q else if q < 0 then -fpPos (-q) else 0

/-- Python `int()` applied to a float value: truncation toward zero. -/
def pyInt (q : ℚ) : ℤ := if q < 0 then -⌊-q⌋ else ⌊q⌋

/- `Rat.mul`/`Rat.add`/`Rat.inv`/`Rat.sub` ship `@[irreducible]`; restoring
their default reducibility lets concrete rational computations (the score
evaluations below) be checked by `decide`. -/
attribute [local semireducible] Rat.mul Rat.add Rat.inv Rat.sub

set_option maxRecDepth 200000

/-! ### Scorer — src/jobsai/agents/scorer.py (lines 89–139) -/

/-- The job fields the scorer reads (`job.get(k, "")`, so `none` models an
absent key). -/
structure ScoreJob where
  title : Option String
  description_snippet : Option String
  full_description : Option String

/-- Python substring containment `needle in haystack` on character lists. -/
def pyContainsSub : List Char → List Char → Bool
  | [], p => p.isEmpty
  | c :: t, p => p.isPrefixOf (c :: t) || pyContainsSub t p

/-- The lowercased `" ".join([title, snippet, full_description])` search
text of `_score_job_against_tech_stack`. -/
def jobSearchText (j : ScoreJob) : String :=
  pyLower (j.title.getD "" ++ " " ++ j.description_snippet.getD "" ++ " " ++
           j.full_description.getD "")

/-- `matched_skills`: candidate technologies whose lowercased form occurs in
the job search text. -/
def matchedSkills (j : ScoreJob) (tech : List String) : List String :=
  tech.filter fun t => pyContainsSub (jobSearchText j).data (pyLower t).data

/-- `missing_skills`: the complementary filter. -/
def missingSkills (j : ScoreJob) (tech : List String) : List String :=
  tech.filter fun t => !pyContainsSub (jobSearchText j).data (pyLower t).data

/-- `int(len(matched_skills) / max(1, len(tech_stack)) * 100)` with float
semantics (binary64 division and multiplication, `int()` truncation). -/
def scoreValue (m n : ℕ) : ℤ :=
  pyInt (fpRound (fpRound ((m : ℚ) / ((max 1 n : ℕ) : ℚ)) * 100))

/-- The scoring enrichment added to a job dict. -/
structure ScoredFields where
  score : ℤ
  matched_skills : List String
  missing_skills : List String

/-- `ScorerService._score_job_against_tech_stack`
(src/jobsai/agents/scorer.py lines 89–139). -/
def score_job_against_tech_stack (j : ScoreJob) (tech : List String) : ScoredFields :=
  { score := scoreValue (matchedSkills j tech).length tech.length
    matched_skills := matchedSkills j tech
    missing_skills := missingSkills j tech }

/-- A candidate technology list of 50 distinct names, for the float-versus-
exact-floor score counterexample. -/
def c1Tech : List String :=
  ["t00", "t01", "t02", "t03", "t04", "t05", "t06", "t07", "t08", "t09",
   "t10", "t11", "t12", "t13", "t14", "t15", "t16", "t17", "t18", "t19",
   "t20", "t21", "t22", "t23", "t24", "t25", "t26", "t27", "t28", "t29",
   "t30", "t31", "t32", "t33", "t34", "t35", "t36", "t37", "t38", "t39",
   "t40", "t41", "t42", "t43", "t44", "t45", "t46", "t47", "t48", "t49"]

/-- A job whose title mentions exactly the first 29 of the 50 candidate
technologies. -/
def c1Job : ScoreJob :=
  ⟨some ("t00 t01 t02 t03 t04 t05 t06 t07 t08 t09 " ++
         "t10 t11 t12 t13 t14 t15 t16 t17 t18 t19 " ++
         "t20 t21 t22 t23 t24 t25 t26 t27 t28"), none, none⟩

/-! ### Scrapers — src/jobsai/utils/scrapers/duunitori.py and jobly.py

A job card is modelled by the results of the CSS-selector/attribute probes
the parser performs (`none` = the sub-element or attribute is absent), plus
the outcome of the optional detail-page fetch for that card (`none` = the
fetch raised, `some s` = it returned `s`). -/

/-- A Duunitori search-result card as seen by `_parse_job_card`
(duunitori.py lines 236–297). -/
structure DTCard where
  titleText : Option String
  jobTagCompany : Option String
  jobTagHref : Option String
  locationText : Option String
  publishedText : Option String
  detailFetch : Option String

/-- A Jobly search-result card as seen by `_parse_job_card`
(jobly.py lines 226–317); each field is the first selector chain hit. -/
structure JLCard where
  titleText : Option String
  companyText : Option String
  locationText : Option String
  urlHref : Option String
  publishedText : Option String
  snippetText : Option String
  detailFetch : Option String

/-- `HOST_URL_DUUNITORI` from src/jobsai/config/paths.py. -/
def HOST_URL_DUUNITORI : String := "https://duunitori.fi"

/-- `HOST_URL_JOBLY` from src/jobsai/config/paths.py. -/
def HOST_URL_JOBLY : String := "https://jobly.fi"

/-- Modelled from the spec: `urllib.parse.urljoin` (Python stdlib, not part
of this repository) resolving a non-empty card `href` "to an absolute URL
against the board's host".  Only called on non-empty `href`; no claim
depends on its value beyond non-emptiness of the inputs. -/
def pyUrljoin (base rel : String) : String :=
  if pyContainsSub rel.data "://".data then rel else base ++ rel

/-- The parsed-card dictionary returned by either `_parse_job_card`. -/
structure ParsedCard where
  title : String
  company : String
  location : String
  url : String
  description_snippet : Option String
  published_date : String
  src_board : String
deriving DecidableEq

/-- `_parse_job_card` of duunitori.py (lines 236–297).  Note the source
sets `"description_snippet": None` unconditionally (line 291). -/
def parseDuunitoriCard (c : DTCard) : ParsedCard :=
  { title := c.titleText.getD ""
    company := c.jobTagCompany.getD ""
    location := c.locationText.getD ""
    url :=
      match c.jobTagHref with
      | none => ""
      | some h => if h = "" then "" else pyUrljoin HOST_URL_DUUNITORI h
    description_snippet := none
    published_date := c.publishedText.getD ""
    src_board := "duunitori" }

/-- `_parse_job_card` of jobly.py (lines 226–317).  `snippet` is the
selector text when present and Python `None` otherwise (line 311); the
`else`-branches reading attributes of a `None` tag are dead code and
collapse to `""`. -/
def parseJoblyCard (c : JLCard) : ParsedCard :=
  { title := c.titleText.getD ""
    company := c.companyText.getD ""
    location := c.locationText.getD ""
    url :=
      match c.urlHref with
      | none => ""
      | some h => if h = "" then "" else pyUrljoin HOST_URL_JOBLY h
    description_snippet := c.snippetText
    published_date := c.publishedText.getD ""
    src_board := "jobly" }

/-- One attempt outcome inside `_fetch_page`: `none` = the request raised
(`requests.RequestException`), `some s` = a response with HTTP status `s`. -/
def AttemptOutcome : Type := Option ℕ

/-- The retry loop of `_fetch_page` (duunitori.py lines 186–233, jobly.py
identical): up to `retries` attempts; 200 and non-retryable statuses are
returned, 429/503 and exceptions retry; exhaustion yields `None`. -/
def fetchPageGo : ℕ → List AttemptOutcome → Option ℕ
  | 0, _ => none
  | _ + 1, [] => none
  | r + 1, a :: rest =>
    match a with
    | none => fetchPageGo r rest
    | some s =>
      if s = 200 then some s
      else if s = 429 ∨ s = 503 then fetchPageGo r rest
      else some s

/-- `_fetch_page` with its default `retries=3`, driven by the per-attempt
outcome sequence. -/
def fetch_page (attempts : List AttemptOutcome) : Option ℕ := fetchPageGo 3 attempts

/-- Outcome of fetching one search page: `fail` = `_fetch_page` returned
`None` (exhausted retries), `page s cards` = a response with status `s`
whose HTML parses into `cards`. -/
inductive PageOutcome (κ : Type) where
  | fail : PageOutcome κ
  | page (status : ℕ) (cards : List κ) : PageOutcome κ

/-- One collected job record: the parsed card plus the enrichment performed
in the page loop.  `full_description = none` models the key being absent
(the source only assigns it when the detail text is truthy, or `""` on
exception / shallow mode). -/
structure ScrapedJob where
  card : ParsedCard
  full_description : Option String
  query_used : String
deriving DecidableEq

/-- Python truthiness test `per_page_limit and total_fetched >= per_page_limit`
(`None` and `0` are falsy). -/
def pplReached (ppl : Option ℕ) (total : ℕ) : Bool :=
  match ppl with
  | none => false
  | some k => decide (k ≠ 0 ∧ k ≤ total)

/-- The inner card loop of `scrape_duunitori`/`scrape_jobly`: parse each
card, attach `full_description` and `query_used`, and stop with `true` when
`per_page_limit` is reached mid-page. -/
def processCards {κ : Type} (parse : κ → ParsedCard) (detail : κ → Option String)
    (query : String) (deepMode : Bool) (ppl : Option ℕ) :
    List κ → List ScrapedJob → ℕ → List ScrapedJob × ℕ × Bool
  | [], acc, total => (acc, total, false)
  | c :: cs, acc, total =>
    let pc := parse c
    let fd : Option String :=
      if deepMode ∧ pc.url ≠ "" then
        match detail c with
        | none => some ""
        | some d => if d = "" then none else some d
      else some ""
    let acc' := acc ++ [⟨pc, fd, query⟩]
    if pplReached ppl (total + 1) then (acc', total + 1, true)
    else processCards parse detail query deepMode ppl cs acc' (total + 1)

/-- The page loop shared by both scrapers (`shortMin` = 20 for Duunitori,
10 for Jobly): stop on fetch failure, non-200 status, an empty card list,
a `per_page_limit` early return, or a short page (checked after
processing). -/
def scrapeGo {κ : Type} (parse : κ → ParsedCard) (detail : κ → Option String)
    (shortMin : ℕ) (query : String) (deepMode : Bool) (ppl : Option ℕ) :
    List (PageOutcome κ) → List ScrapedJob → ℕ → List ScrapedJob
  | [], acc, _ => acc
  | po :: rest, acc, total =>
    match po with
    | .fail => acc
    | .page st cards =>
      if st ≠ 200 then acc
      else if cards.isEmpty then acc
      else
        match processCards parse detail query deepMode ppl cards acc total with
        | (acc', _, true) => acc'
        | (acc', total', false) =>
          if cards.length < shortMin then acc'
          else scrapeGo parse detail shortMin query deepMode ppl rest acc' total'

/-- `scrape_duunitori` (duunitori.py lines 55–178), driven by the sequence
of page outcomes for pages `1 .. num_pages` (the list has one entry per
page the loop may visit). -/
def scrape_duunitori (query : String) (deepMode : Bool) (ppl : Option ℕ)
    (pages : List (PageOutcome DTCard)) : List ScrapedJob :=
  scrapeGo parseDuunitoriCard DTCard.detailFetch 20 query deepMode ppl pages [] 0

/-- `scrape_jobly` (jobly.py lines 55–167), same structure with a
10-card short-page threshold. -/
def scrape_jobly (query : String) (deepMode : Bool) (ppl : Option ℕ)
    (pages : List (PageOutcome JLCard)) : List ScrapedJob :=
  scrapeGo parseJoblyCard JLCard.detailFetch 10 query deepMode ppl pages [] 0

/-! ## Theorems -/

/-! ### C3 — query builder determinism, sortedness, concrete output -/

/-- C3: `build_queries` is deterministic (it is a pure function of the
profile) and always returns a lexicographically sorted duplicate-free list;
on the profile with `core_languages = ["Python"]` and all other inputs
empty it returns exactly the eight listed queries. -/
theorem build_queries_sorted_nodup_and_python_profile :
    (∀ p : QueryProfile,
        (build_queries p).Sorted pyStrLe ∧ (build_queries p).Nodup) ∧
    build_queries ⟨["Python"], [], []⟩ =
      ["agentic ai", "entry level developer", "junior full stack developer",
       "junior python developer", "junior software developer", "llm engineer",
       "python developer", "python engineer"] := by
  refine ⟨fun p => ⟨List.sorted_insertionSort _ _, ?_⟩, ?_⟩
  · exact (List.perm_insertionSort _ _).symm.nodup (List.nodup_dedup _)
  · decide

/-! ### C2 — collector deduplication keeps the first record per URL -/

/-- Invariant relating the searcher's `seen_urls` set to the already
iterated prefix of the job list. -/
def SeenInv (seen : List String) (prev : List CollJob) : Prop :=
  ∀ u : String, u ∈ seen ↔ (u ≠ "" ∧ ∃ p ∈ prev, p.url = some u)

theorem dedupJobsGo_eq_spec (l : List CollJob) :
    ∀ (seen : List String) (prev : List CollJob), SeenInv seen prev →
      dedupJobsGo seen l = dedupSpecGo prev l := by
  induction l with
  | nil => intro seen prev _; rfl
  | cons j r ih =>
    intro seen prev hinv
    have hkeep : (urlTruthy j.url ∧ ∀ p ∈ prev, p.url ≠ j.url) ↔
        (∃ u, j.url = some u ∧ u ≠ "" ∧ u ∉ seen) := by
      constructor
      · rintro ⟨⟨u, hu, hne⟩, hall⟩
        refine ⟨u, hu, hne, fun hmem => ?_⟩
        obtain ⟨-, p, hp, hpu⟩ := (hinv u).mp hmem
        exact hall p hp (hpu.trans hu.symm)
      · rintro ⟨u, hu, hne, hns⟩
        refine ⟨⟨u, hu, hne⟩, fun p hp hpu => ?_⟩
        exact hns ((hinv u).mpr ⟨hne, p, hp, by rw [hpu, hu]⟩)
    have hinvNoAdd : j.url = none ∨ (∃ u, j.url = some u ∧ (u = "" ∨ u ∈ seen)) →
        SeenInv seen (prev ++ [j]) := by
      intro hcase v
      rw [hinv v]
      simp only [List.mem_append, List.mem_cons, List.not_mem_nil, or_false]
      constructor
      · rintro ⟨hne, p, hp, hpu⟩; exact ⟨hne, p, Or.inl hp, hpu⟩
      · rintro ⟨hne, p, hp | rfl, hpu⟩
        · exact ⟨hne, p, hp, hpu⟩
        · rcases hcase with hn | ⟨u, hu, hu2⟩
          · rw [hn] at hpu; cases hpu
          · rw [hu] at hpu
            cases Option.some_injective _ hpu
            rcases hu2 with rfl | hmem
            · exact absurd rfl hne
            · exact ⟨hne, (hinv v).mp hmem |>.2⟩
    have hgoal : dedupJobsGo seen (j :: r) =
        if urlTruthy j.url ∧ ∀ p ∈ prev, p.url ≠ j.url then
          j :: dedupSpecGo (prev ++ [j]) r
        else dedupSpecGo (prev ++ [j]) r := ?_
    · rw [hgoal]; rfl
    cases hj : j.url with
    | none =>
      have hspec : ¬(urlTruthy j.url ∧ ∀ p ∈ prev, p.url ≠ j.url) := by
        rw [hkeep, hj]; rintro ⟨u, h, -⟩; cases h
      rw [hj] at hspec
      rw [if_neg hspec]
      simp only [dedupJobsGo, hj]
      exact ih seen (prev ++ [j]) (hinvNoAdd (Or.inl hj))
    | some u =>
      by_cases hcond : u ≠ "" ∧ u ∉ seen
      · have hspec : urlTruthy j.url ∧ ∀ p ∈ prev, p.url ≠ j.url :=
          hkeep.mpr ⟨u, hj, hcond.1, hcond.2⟩
        rw [hj] at hspec
        rw [if_pos hspec]
        simp only [dedupJobsGo, hj, if_pos hcond]
        congr 1
        refine ih (u :: seen) (prev ++ [j]) fun v => ?_
        simp only [List.mem_cons, hinv v, List.mem_append, List.mem_cons, List.not_mem_nil, or_false]
        constructor
        · rintro (rfl | ⟨hne, p, hp, hpu⟩)
          · exact ⟨hcond.1, j, Or.inr rfl, hj⟩
          · exact ⟨hne, p, Or.inl hp, hpu⟩
        · rintro ⟨hne, p, hp | rfl, hpu⟩
          · exact Or.inr ⟨hne, p, hp, hpu⟩
          · rw [hj] at hpu; exact Or.inl (Option.some_injective _ hpu).symm
      · have hspec : ¬(urlTruthy j.url ∧ ∀ p ∈ prev, p.url ≠ j.url) := by
          rw [hkeep]
          rintro ⟨u', hu', hne, hns⟩
          rw [hj] at hu'
          cases Option.some_injective _ hu'
          exact hcond ⟨hne, hns⟩
        have hcase : u = "" ∨ u ∈ seen := by
          by_contra hc
          push_neg at hc
          exact hcond ⟨hc.1, hc.2⟩
        rw [hj] at hspec
        rw [if_neg hspec]
        simp only [dedupJobsGo, hj, if_neg hcond]
        exact ih seen (prev ++ [j]) (hinvNoAdd (Or.inr ⟨u, hj, hcase⟩))

theorem dedupJobsGo_sublist (l : List CollJob) :
    ∀ seen : List String, List.Sublist (dedupJobsGo seen l) l := by
  induction l with
  | nil => intro seen; exact List.Sublist.refl _
  | cons j r ih =>
    intro seen
    cases hj : j.url with
    | none => simpa only [dedupJobsGo, hj] using (ih seen).cons j
    | some u =>
      by_cases hcond : u ≠ "" ∧ u ∉ seen
      · simp only [dedupJobsGo, hj, if_pos hcond]
        exact (ih (u :: seen)).cons₂ j
      · simp only [dedupJobsGo, hj, if_neg hcond]
        exact (ih seen).cons j

/-- C2: the collector's deduplication coincides with the specification
"iterate in original order; keep a record exactly when its `url` is a
non-blank string not carried by any earlier record", and the result is a
sublist (order-preserving selection) of the input.  In particular, of two
records with the same non-empty `url`, exactly the first-encountered one is
kept, and records with a blank or absent `url` are discarded. -/
theorem deduplicate_jobs_first_per_url (jobs : List CollJob) :
    deduplicate_jobs jobs = dedupSpec jobs ∧
      List.Sublist (deduplicate_jobs jobs) jobs := by
  constructor
  · exact dedupJobsGo_eq_spec jobs [] [] (by intro u; simp [SeenInv])
  · exact dedupJobsGo_sublist jobs []

/-! ### C6 — `experience_level` normalization -/

theorem lookup_mem {d : ExpDict} {k : String} {v : Option Int}
    (h : List.lookup k d = some v) : (k, v) ∈ d := by
  induction d with
  | nil => cases h
  | cons p r ih =>
    obtain ⟨k', v'⟩ := p
    by_cases hk : k = k'
    · subst hk
      simp only [List.lookup, beq_self_eq_true, if_pos] at h
      cases h
      exact List.mem_cons_self _ _
    · simp only [List.lookup, beq_eq_false_iff_ne.mpr hk] at h
      exact List.mem_cons_of_mem _ (ih h)

theorem pyOrZero_nonneg {d : ExpDict} (k : String)
    (hpos : ∀ k' v, (k', some v) ∈ d → 0 ≤ v) : 0 ≤ pyOrZero (expGet d k) := by
  unfold pyOrZero expGet
  cases hl : List.lookup k d with
  | none => exact le_refl 0
  | some o =>
    cases o with
    | none => exact le_refl 0
    | some v => exact hpos k v (lookup_mem hl)

theorem pyOrOrZero_nonneg {d : ExpDict} (k1 k2 : String)
    (hpos : ∀ k' v, (k', some v) ∈ d → 0 ≤ v) :
    0 ≤ pyOrOrZero (expGet d k1) (expGet d k2) := by
  unfold pyOrOrZero
  cases hl : expGet d k1 with
  | none => exact pyOrZero_nonneg k2 hpos
  | some n =>
    dsimp only
    by_cases hn : n = 0
    · rw [if_pos hn]; exact pyOrZero_nonneg k2 hpos
    · rw [if_neg hn]
      have : (k1, some n) ∈ d := by
        unfold expGet at hl
        cases hll : List.lookup k1 d with
        | none => rw [hll] at hl; cases hl
        | some o => rw [hll] at hl; subst hl; exact lookup_mem hll
      exact hpos k1 n this

/-- C6 counterexample: on the accepted input profile whose
`experience_level` dict is `{"Python": -3}`, `normalize_parsed` returns the
value `-3` under the key `"Python"` — a negative integer, contradicting the
claimed non-negativity. -/
theorem normParsedExperience_negative_output :
    normParsedExperience (some [("Python", some (-3))]) =
      [("Python", -3), ("JavaScript", 0), ("Agentic AI", 0), ("AI/ML", 0)] ∧
    ("Python", (-3 : ℤ)) ∈ normParsedExperience (some [("Python", some (-3))]) ∧
    ¬(0 : ℤ) ≤ -3 := by
  refine ⟨by decide, by decide, by decide⟩

/-- C6 (amended): after normalization `experience_level` has exactly the
four keys `"Python"`, `"JavaScript"`, `"Agentic AI"`, `"AI/ML"`, and every
value is an integer that is non-negative *provided* every integer stored in
the input dict is non-negative (the source passes input values through
`int(x or 0)` without clamping, so a negative input survives). -/
theorem normParsedExperience_keys_and_conditional_nonneg (e : Option ExpDict)
    (hpos : ∀ d, e = some d → ∀ k v, (k, some v) ∈ d → 0 ≤ v) :
    (normParsedExperience e).map Prod.fst =
        ["Python", "JavaScript", "Agentic AI", "AI/ML"] ∧
    ∀ k v, (k, v) ∈ normParsedExperience e → 0 ≤ v := by
  cases e with
  | none =>
    refine ⟨rfl, fun k v hv => ?_⟩
    have he : normParsedExperience none =
        [("Python", 0), ("JavaScript", 0), ("Agentic AI", 0), ("AI/ML", 0)] := by decide
    rw [he] at hv
    simp only [List.mem_cons, List.not_mem_nil, or_false, Prod.mk.injEq] at hv
    rcases hv with ⟨-, rfl⟩ | ⟨-, rfl⟩ | ⟨-, rfl⟩ | ⟨-, rfl⟩ <;> exact le_refl 0
  | some d =>
    refine ⟨rfl, fun k v hv => ?_⟩
    have hp := hpos d rfl
    simp only [normParsedExperience, normExperience, List.mem_cons,
      List.not_mem_nil, or_false, Prod.mk.injEq] at hv
    rcases hv with ⟨-, rfl⟩ | ⟨-, rfl⟩ | ⟨-, rfl⟩ | ⟨-, rfl⟩
    · exact pyOrZero_nonneg _ hp
    · exact pyOrZero_nonneg _ hp
    · exact pyOrOrZero_nonneg _ _ hp
    · exact pyOrOrZero_nonneg _ _ hp

/-- Witness for the amended C6 theorem at a concrete accepted input. -/
theorem normParsedExperience_keys_and_conditional_nonneg_witness :
    (normParsedExperience (some [("Python", some 5)])).map Prod.fst =
        ["Python", "JavaScript", "Agentic AI", "AI/ML"] ∧
    ∀ k v, (k, v) ∈ normParsedExperience (some [("Python", some 5)]) → 0 ≤ v :=
  normParsedExperience_keys_and_conditional_nonneg (some [("Python", some 5)]) (by
    intro d hd k v hv
    injection hd with hd
    subst hd
    simp only [List.mem_cons, List.not_mem_nil, or_false, Prod.mk.injEq,
      Option.some.injEq] at hv
    obtain ⟨-, rfl⟩ := hv
    decide)

/-! ### C7 — fallback job identity -/

/-- C7 counterexample: two URL-less records that differ in the `title`
field (`"Dev"` vs `"dev"`) nevertheless synthesize the same identity string
and are treated as duplicates (the second is discarded), refuting "any
difference in those fields makes them distinct". -/
theorem jobIdentity_case_collision :
    (RawJob.mk (some "") (some "Dev") (some "q") (some "s")).title ≠
      (RawJob.mk (some "") (some "dev") (some "q") (some "s")).title ∧
    jobIdentity ⟨some "", some "Dev", some "q", some "s"⟩ =
      jobIdentity ⟨some "", some "dev", some "q", some "s"⟩ ∧
    scorerDedup [⟨some "", some "Dev", some "q", some "s"⟩,
                 ⟨some "", some "dev", some "q", some "s"⟩] =
      [⟨some "", some "Dev", some "q", some "s"⟩] := by
  refine ⟨by decide, by decide, by decide⟩

/-- C7 (amended): the identity of a record with non-blank `url` is the
trimmed `url`; a record whose trimmed `url` is blank gets the synthesized
`title|query_used|snippet[:80]` identity (empty — hence excluded — iff all
three normalized components are empty); and two URL-less deduplicable
records are duplicates *iff their synthesized identity strings are equal*
(equality of the raw fields is not required: differences erased by
trimming, lowercasing or 80-character truncation do not distinguish). -/
theorem scorerDedup_urlless_pair (a b : RawJob)
    (ha : pyStrip (a.url.getD "") = "") (hb : pyStrip (b.url.getD "") = "")
    (h1 : jobIdentity a ≠ "") (h2 : jobIdentity b ≠ "") :
    scorerDedup [a, b] =
      if jobIdentity a = jobIdentity b then [a] else [a, b] := by
  simp only [scorerDedup, scorerDedupGo]
  rw [if_pos ⟨h1, List.not_mem_nil _⟩]
  by_cases heq : jobIdentity a = jobIdentity b
  · rw [if_pos heq, if_neg]
    rintro ⟨-, hmem⟩
    exact hmem (by rw [heq]; exact List.mem_cons_self _ _)
  · rw [if_neg heq]
    have hnb : jobIdentity b ∉ [jobIdentity a] := by
      simp only [List.mem_cons, List.not_mem_nil, or_false]
      exact fun hc => heq hc.symm
    rw [if_pos ⟨h2, hnb⟩]

/-- Witness for the amended C7 theorem at concrete URL-less records. -/
theorem scorerDedup_urlless_pair_witness :
    scorerDedup [⟨none, some "x", none, none⟩, ⟨none, some "y", none, none⟩] =
      if jobIdentity (⟨none, some "x", none, none⟩ : RawJob) =
          jobIdentity (⟨none, some "y", none, none⟩ : RawJob) then
        [⟨none, some "x", none, none⟩]
      else [⟨none, some "x", none, none⟩, ⟨none, some "y", none, none⟩] :=
  scorerDedup_urlless_pair _ _ (by decide) (by decide) (by decide) (by decide)

/-! ### C5 — card parsing defaults -/

/-- C5: on a card with every expected sub-element absent, the Duunitori
parser fills `title`, `company`, `location`, `url` and `published_date`
with `""` — but `description_snippet` is Python `None`, not `""` (the
Duunitori parser sets it to `None` on *every* card, and the Jobly parser
sets it to `None` whenever the snippet selector misses), contradicting the
claimed empty-string default (and the parsers' own docstrings). -/
theorem parse_job_card_snippet_is_none :
    parseDuunitoriCard ⟨none, none, none, none, none, none⟩ =
      { title := "", company := "", location := "", url := "",
        description_snippet := none, published_date := "",
        src_board := "duunitori" } ∧
    (parseJoblyCard ⟨none, none, none, none, none, none, none⟩).description_snippet
        = none ∧
    (∀ c : DTCard, (parseDuunitoriCard c).description_snippet = none) ∧
    (none : Option String) ≠ some "" := by
  exact ⟨rfl, rfl, fun c => rfl, by decide⟩

/-! ### C9, C10 — scraper pagination stops -/

/-- A page outcome on which the page loop stops without processing:
a fetch failure (`None` after retries), a non-200 response, or a page with
zero parsed cards. -/
def StopOutcome {κ : Type} : PageOutcome κ → Prop
  | .fail => True
  | .page st cards => st ≠ 200 ∨ cards = []

theorem scrapeGo_stop_after {κ : Type} (parse : κ → ParsedCard)
    (detail : κ → Option String) (shortMin : ℕ) (query : String) (dm : Bool)
    (ppl : Option ℕ) (l1 l2 : List (PageOutcome κ)) (bad : PageOutcome κ)
    (hbad : StopOutcome bad) :
    ∀ acc total,
      scrapeGo parse detail shortMin query dm ppl (l1 ++ bad :: l2) acc total =
        scrapeGo parse detail shortMin query dm ppl l1 acc total := by
  induction l1 with
  | nil =>
    intro acc total
    cases bad with
    | fail => rfl
    | page st cards =>
      have hbad' : st ≠ 200 ∨ cards = [] := hbad
      simp only [List.nil_append, scrapeGo]
      rcases hbad' with hst | hcards
      · rw [if_pos hst]
      · subst hcards
        by_cases hst : st ≠ 200
        · rw [if_pos hst]
        · rw [if_neg hst]
          simp
  | cons p l1' ih =>
    intro acc total
    cases p with
    | fail => rfl
    | page st cards =>
      simp only [List.cons_append, scrapeGo]
      by_cases hst : st ≠ 200
      · rw [if_pos hst, if_pos hst]
      · rw [if_neg hst, if_neg hst]
        by_cases hemp : cards.isEmpty
        · rw [if_pos hemp, if_pos hemp]
        · rw [if_neg hemp, if_neg hemp]
          rcases hpc : processCards parse detail query dm ppl cards acc total with
            ⟨acc', total', flag⟩
          cases flag with
          | true => rfl
          | false =>
            dsimp only
            by_cases hshort : cards.length < shortMin
            · rw [if_pos hshort, if_pos hshort]
            · rw [if_neg hshort, if_neg hshort]
              exact ih acc' total'

theorem fetchPageGo_retry_exhaustion :
    ∀ (r : ℕ) (l : List AttemptOutcome),
      (∀ a ∈ l, a = none ∨ a = some 429 ∨ a = some 503) →
      fetchPageGo r l = none := by
  intro r
  induction r with
  | zero => intro l _; rfl
  | succ r ih =>
    intro l hl
    cases l with
    | nil => rfl
    | cons a rest =>
      rcases hl a (List.mem_cons_self _ _) with rfl | rfl | rfl
      · exact ih rest fun x hx => hl x (List.mem_cons_of_mem _ hx)
      · simp only [fetchPageGo]
        rw [if_neg (by decide), if_pos (by decide)]
        exact ih rest fun x hx => hl x (List.mem_cons_of_mem _ hx)
      · simp only [fetchPageGo]
        rw [if_neg (by decide), if_pos (by decide)]
        exact ih rest fun x hx => hl x (List.mem_cons_of_mem _ hx)

/-- C9: neither scraper ever turns a failed or unexpected page into an
error: a page whose fetch exhausted its retries (`fail`), returned a
non-200 status, or parsed into zero job cards stops pagination, and the
function returns exactly the listings collected on the earlier pages;
moreover `_fetch_page` returns `None` (not an exception) when all of its
attempts are rate-limited (429/503) or raise. -/
theorem scrapers_stop_cleanly_on_failure :
    (∀ (q : String) (dm : Bool) (ppl : Option ℕ)
        (l1 l2 : List (PageOutcome DTCard)) (bad : PageOutcome DTCard),
        StopOutcome bad →
        scrape_duunitori q dm ppl (l1 ++ bad :: l2) = scrape_duunitori q dm ppl l1) ∧
    (∀ (q : String) (dm : Bool) (ppl : Option ℕ)
        (l1 l2 : List (PageOutcome JLCard)) (bad : PageOutcome JLCard),
        StopOutcome bad →
        scrape_jobly q dm ppl (l1 ++ bad :: l2) = scrape_jobly q dm ppl l1) ∧
    (∀ attempts : List AttemptOutcome,
        (∀ a ∈ attempts, a = none ∨ a = some 429 ∨ a = some 503) →
        fetch_page attempts = none) := by
  refine ⟨fun q dm ppl l1 l2 bad hbad => ?_, fun q dm ppl l1 l2 bad hbad => ?_,
    fun attempts h => fetchPageGo_retry_exhaustion 3 attempts h⟩
  · exact scrapeGo_stop_after _ _ _ _ _ _ l1 l2 bad hbad [] 0
  · exact scrapeGo_stop_after _ _ _ _ _ _ l1 l2 bad hbad [] 0

/-- Witness for C9 at concrete inputs: one good Duunitori page followed by
a non-200 page, and an all-retryable attempt sequence. -/
theorem scrapers_stop_cleanly_on_failure_witness :
    scrape_duunitori "q" false none
        ([PageOutcome.page 200 (List.replicate 21 (DTCard.mk none none none none none none))] ++
          PageOutcome.page 404 [] :: [PageOutcome.fail]) =
      scrape_duunitori "q" false none
        [PageOutcome.page 200 (List.replicate 21 (DTCard.mk none none none none none none))] ∧
    scrape_jobly "q" false none ([] ++ PageOutcome.fail :: []) =
      scrape_jobly "q" false none [] ∧
    fetch_page [none, some 429, some 503] = none := by
  refine ⟨(scrapers_stop_cleanly_on_failure.1 "q" false none _ _ _ (Or.inl (by decide))),
    (scrapers_stop_cleanly_on_failure.2.1 "q" false none _ _ _ trivial),
    (scrapers_stop_cleanly_on_failure.2.2 _ (by intro a ha; fin_cases ha <;> simp))⟩

theorem scrapeGo_short_page_stops {κ : Type} (parse : κ → ParsedCard)
    (detail : κ → Option String) (shortMin : ℕ) (query : String) (dm : Bool)
    (ppl : Option ℕ) (l1 l2 : List (PageOutcome κ)) (st : ℕ) (cards : List κ)
    (hshort : cards.length < shortMin) :
    ∀ acc total,
      scrapeGo parse detail shortMin query dm ppl
          (l1 ++ PageOutcome.page st cards :: l2) acc total =
        scrapeGo parse detail shortMin query dm ppl
          (l1 ++ [PageOutcome.page st cards]) acc total := by
  induction l1 with
  | nil =>
    intro acc total
    simp only [List.nil_append, scrapeGo]
    by_cases hst : st ≠ 200
    · rw [if_pos hst, if_pos hst]
    · rw [if_neg hst, if_neg hst]
      by_cases hemp : cards.isEmpty
      · rw [if_pos hemp, if_pos hemp]
      · rw [if_neg hemp, if_neg hemp]
        rcases hpc : processCards parse detail query dm ppl cards acc total with
          ⟨acc', total', flag⟩
        cases flag with
        | true => rfl
        | false => dsimp only; rw [if_pos hshort, if_pos hshort]
  | cons p l1' ih =>
    intro acc total
    cases p with
    | fail => rfl
    | page st' cards' =>
      simp only [List.cons_append, scrapeGo]
      by_cases hst : st' ≠ 200
      · rw [if_pos hst, if_pos hst]
      · rw [if_neg hst, if_neg hst]
        by_cases hemp : cards'.isEmpty
        · rw [if_pos hemp, if_pos hemp]
        · rw [if_neg hemp, if_neg hemp]
          rcases hpc : processCards parse detail query dm ppl cards' acc total with
            ⟨acc', total', flag⟩
          cases flag with
          | true => rfl
          | false =>
            dsimp only
            by_cases hshort' : cards'.length < shortMin
            · rw [if_pos hshort', if_pos hshort']
            · rw [if_neg hshort', if_neg hshort']
              exact ih acc' total'

/-- C10: a results page with fewer than 20 cards (Duunitori) or fewer than
10 cards (Jobly) ends pagination after being processed: any later pages in
the outcome sequence never contribute, even when the short page itself had
cards and more pages were requested. -/
theorem scrapers_stop_after_short_page :
    (∀ (q : String) (dm : Bool) (ppl : Option ℕ)
        (l1 l2 : List (PageOutcome DTCard)) (st : ℕ) (cards : List DTCard),
        cards.length < 20 →
        scrape_duunitori q dm ppl (l1 ++ PageOutcome.page st cards :: l2) =
          scrape_duunitori q dm ppl (l1 ++ [PageOutcome.page st cards])) ∧
    (∀ (q : String) (dm : Bool) (ppl : Option ℕ)
        (l1 l2 : List (PageOutcome JLCard)) (st : ℕ) (cards : List JLCard),
        cards.length < 10 →
        scrape_jobly q dm ppl (l1 ++ PageOutcome.page st cards :: l2) =
          scrape_jobly q dm ppl (l1 ++ [PageOutcome.page st cards])) := by
  refine ⟨fun q dm ppl l1 l2 st cards h => ?_, fun q dm ppl l1 l2 st cards h => ?_⟩
  · exact scrapeGo_short_page_stops _ _ _ _ _ _ l1 l2 st cards h [] 0
  · exact scrapeGo_short_page_stops _ _ _ _ _ _ l1 l2 st cards h [] 0

/-- Witness for C10: a 1-card 200 page stops the Duunitori scrape even with
a further page queued, and likewise a 1-card page for Jobly. -/
theorem scrapers_stop_after_short_page_witness :
    scrape_duunitori "q" false none
        ([] ++ PageOutcome.page 200 [DTCard.mk none none none none none none] ::
          [PageOutcome.page 200 (List.replicate 21 (DTCard.mk none none none none none none))]) =
      scrape_duunitori "q" false none
        ([] ++ [PageOutcome.page 200 [DTCard.mk none none none none none none]]) ∧
    scrape_jobly "q" false none
        ([] ++ PageOutcome.page 200 [JLCard.mk none none none none none none none] ::
          [PageOutcome.fail]) =
      scrape_jobly "q" false none
        ([] ++ [PageOutcome.page 200 [JLCard.mk none none none none none none none]]) := by
  exact ⟨scrapers_stop_after_short_page.1 "q" false none [] _ 200 _ (by decide),
    scrapers_stop_after_short_page.2 "q" false none [] _ 200 _ (by decide)⟩

/-! ### C4, C8 — character-level facts about the ASCII primitives -/

theorem char_toNat_ofNat {n : ℕ} (h : n < 55296) : (Char.ofNat n).toNat = n := by
  unfold Char.ofNat
  rw [dif_pos (Or.inl h)]
  simp [Char.ofNatAux, Char.toNat, UInt32.toNat, UInt32.ofNatCore]

theorem char_eq_of_toNat {a b : Char} (h : a.toNat = b.toNat) : a = b :=
  Char.ext (UInt32.ext h)

theorem toNat_pyToLowerCh (c : Char) :
    (pyToLowerCh c).toNat =
      if 65 ≤ c.toNat ∧ c.toNat ≤ 90 then c.toNat + 32 else c.toNat := by
  unfold pyToLowerCh
  by_cases h : 65 ≤ c.toNat ∧ c.toNat ≤ 90
  · rw [if_pos h, if_pos h, char_toNat_ofNat (by omega)]
  · rw [if_neg h, if_neg h]

theorem toNat_pyToUpperCh (c : Char) :
    (pyToUpperCh c).toNat =
      if 97 ≤ c.toNat ∧ c.toNat ≤ 122 then c.toNat - 32 else c.toNat := by
  unfold pyToUpperCh
  by_cases h : 97 ≤ c.toNat ∧ c.toNat ≤ 122
  · rw [if_pos h, if_pos h, char_toNat_ofNat (by omega)]
  · rw [if_neg h, if_neg h]

theorem pyToLowerCh_pyToUpperCh (c : Char) :
    pyToLowerCh (pyToUpperCh c) = pyToLowerCh c := by
  apply char_eq_of_toNat
  rw [toNat_pyToLowerCh, toNat_pyToLowerCh, toNat_pyToUpperCh]
  split_ifs <;> omega

theorem pyToLowerCh_idem (c : Char) :
    pyToLowerCh (pyToLowerCh c) = pyToLowerCh c := by
  apply char_eq_of_toNat
  rw [toNat_pyToLowerCh, toNat_pyToLowerCh]
  split_ifs <;> omega

theorem pyIsUpperCh_pyToLowerCh (c : Char) : pyIsUpperCh (pyToLowerCh c) = false := by
  simp only [pyIsUpperCh, decide_eq_false_iff_not]
  rw [toNat_pyToLowerCh]
  split_ifs <;> omega

theorem pyToLowerCh_of_not_upper {c : Char} (h : pyIsUpperCh c = false) :
    pyToLowerCh c = c := by
  simp only [pyIsUpperCh, decide_eq_false_iff_not] at h
  unfold pyToLowerCh
  rw [if_neg h]

theorem pyToUpperCh_of_not_lower {c : Char} (h : pyIsLowerCh c = false) :
    pyToUpperCh c = c := by
  simp only [pyIsLowerCh, decide_eq_false_iff_not] at h
  unfold pyToUpperCh
  rw [if_neg h]

theorem pyIsUpperCh_pyToUpperCh_of_lower {c : Char} (h : pyIsLowerCh c = true) :
    pyIsUpperCh (pyToUpperCh c) = true := by
  simp only [pyIsLowerCh, decide_eq_true_eq] at h
  simp only [pyIsUpperCh, decide_eq_true_eq]
  rw [toNat_pyToUpperCh]
  split_ifs <;> omega

theorem pyIsSpace_pyToUpperCh (c : Char) : pyIsSpace (pyToUpperCh c) = pyIsSpace c := by
  simp only [pyIsSpace, decide_eq_decide]
  rw [toNat_pyToUpperCh]
  split_ifs <;> omega

theorem pyIsSpace_pyToLowerCh (c : Char) : pyIsSpace (pyToLowerCh c) = pyIsSpace c := by
  simp only [pyIsSpace, decide_eq_decide]
  rw [toNat_pyToLowerCh]
  split_ifs <;> omega

theorem pyLowerL_pyLowerL (t : List Char) : pyLowerL (pyLowerL t) = pyLowerL t := by
  unfold pyLowerL
  rw [List.map_map]
  exact List.map_congr_left fun a _ => pyToLowerCh_idem a

theorem pyLowerL_pyCapitalizeL (l : List Char) :
    pyLowerL (pyCapitalizeL l) = pyLowerL l := by
  cases l with
  | nil => rfl
  | cons c t =>
    show pyToLowerCh (pyToUpperCh c) :: pyLowerL (pyLowerL t) = pyToLowerCh c :: pyLowerL t
    rw [pyToLowerCh_pyToUpperCh, pyLowerL_pyLowerL]

theorem pyLowerL_of_no_upper {l : List Char} (h : ∀ c ∈ l, pyIsUpperCh c = false) :
    pyLowerL l = l := by
  induction l with
  | nil => rfl
  | cons c t ih =>
    show pyToLowerCh c :: pyLowerL t = c :: t
    rw [pyToLowerCh_of_not_upper (h c (List.mem_cons_self _ _)),
      ih fun x hx => h x (List.mem_cons_of_mem _ hx)]

/-- The `token_lowercase.isupper()` test in `_normalize_token` can never
fire: every cased character of a lowercased string is lowercase. -/
theorem pyIsUpperStrL_pyLowerL (l : List Char) : pyIsUpperStrL (pyLowerL l) = false := by
  unfold pyIsUpperStrL
  by_cases h : (pyLowerL l).any (fun c => pyIsUpperCh c || pyIsLowerCh c) = true
  · obtain ⟨c', hc', hcased⟩ := List.any_eq_true.mp h
    obtain ⟨c, -, rfl⟩ := List.mem_map.mp hc'
    have hup : pyIsUpperCh (pyToLowerCh c) = false := pyIsUpperCh_pyToLowerCh c
    rw [hup, Bool.false_or] at hcased
    have hall : (pyLowerL l).all (fun c => !(pyIsLowerCh c)) = false := by
      rw [Bool.eq_false_iff]
      intro hall
      have := List.all_eq_true.mp hall _ hc'
      rw [hcased] at this
      cases this
    rw [hall, Bool.and_false]
  · rw [Bool.eq_false_iff.mpr h, Bool.false_and]

theorem pyIsUpperStrL_any_upper {l : List Char} (h : pyIsUpperStrL l = true) :
    l.any pyIsUpperCh = true := by
  unfold pyIsUpperStrL at h
  rw [Bool.and_eq_true] at h
  obtain ⟨c, hc, hcased⟩ := List.any_eq_true.mp h.1
  have hnl := List.all_eq_true.mp h.2 c hc
  rw [List.any_eq_true]
  refine ⟨c, hc, ?_⟩
  cases hu : pyIsUpperCh c with
  | true => rfl
  | false =>
    rw [hu, Bool.false_or] at hcased
    rw [hcased] at hnl
    cases hnl

/-! Strip-related facts. -/

theorem dropWhile_eq_self_of_head {p : Char → Bool} {l : List Char}
    (h : ∀ c ∈ l.head?, p c = false) : l.dropWhile p = l := by
  cases l with
  | nil => rfl
  | cons a t =>
    rw [List.dropWhile_cons, if_neg]
    rw [h a rfl]
    simp

theorem head?_dropWhile_false (p : Char → Bool) (l : List Char) :
    ∀ c ∈ (l.dropWhile p).head?, p c = false := by
  induction l with
  | nil => intro c hc; cases hc
  | cons a t ih =>
    intro c hc
    rw [List.dropWhile_cons] at hc
    by_cases hpa : p a = true
    · rw [if_pos hpa] at hc
      exact ih c hc
    · rw [if_neg hpa] at hc
      cases hc
      exact Bool.eq_false_iff.mpr hpa

theorem getLast?_of_suffix {l m : List Char} (h : l <:+ m) (hne : l ≠ []) :
    m.getLast? = l.getLast? := by
  obtain ⟨t, rfl⟩ := h
  rw [List.getLast?_append, Option.or_of_isSome (List.getLast?_isSome.mpr hne)]

theorem pyStripL_eq_self {l : List Char}
    (h1 : ∀ c ∈ l.head?, pyIsSpace c = false)
    (h2 : ∀ c ∈ l.getLast?, pyIsSpace c = false) : pyStripL l = l := by
  unfold pyStripL
  rw [dropWhile_eq_self_of_head h1]
  rw [dropWhile_eq_self_of_head (by rw [List.head?_reverse]; exact h2)]
  exact List.reverse_reverse l

theorem pyStripL_head (l : List Char) :
    ∀ c ∈ (pyStripL l).head?, pyIsSpace c = false := by
  intro c hc
  unfold pyStripL at hc
  rw [List.head?_reverse] at hc
  rcases hX : (l.dropWhile pyIsSpace).reverse.dropWhile pyIsSpace with _ | ⟨a, X'⟩
  · rw [hX] at hc; cases hc
  · rw [hX] at hc
    have hsuf : (l.dropWhile pyIsSpace).reverse.dropWhile pyIsSpace <:+
        (l.dropWhile pyIsSpace).reverse := List.dropWhile_suffix _
    rw [hX] at hsuf
    have := getLast?_of_suffix hsuf (by simp)
    rw [List.getLast?_reverse] at this
    rw [← this] at hc
    exact head?_dropWhile_false pyIsSpace l c hc

theorem pyStripL_getLast (l : List Char) :
    ∀ c ∈ (pyStripL l).getLast?, pyIsSpace c = false := by
  intro c hc
  unfold pyStripL at hc
  rw [List.getLast?_reverse] at hc
  exact head?_dropWhile_false pyIsSpace _ c hc

theorem pyStripL_pyStripL (l : List Char) : pyStripL (pyStripL l) = pyStripL l :=
  pyStripL_eq_self (pyStripL_head l) (pyStripL_getLast l)

theorem pyStripL_pyCapitalizeL {l : List Char}
    (h1 : ∀ c ∈ l.head?, pyIsSpace c = false)
    (h2 : ∀ c ∈ l.getLast?, pyIsSpace c = false) :
    pyStripL (pyCapitalizeL l) = pyCapitalizeL l := by
  apply pyStripL_eq_self
  · cases l with
    | nil => intro c hc; cases hc
    | cons a t =>
      intro c hc
      cases hc
      rw [pyIsSpace_pyToUpperCh]
      exact h1 a rfl
  · cases l with
    | nil => intro c hc; cases hc
    | cons a t =>
      cases t with
      | nil =>
        intro c hc
        have he : (pyCapitalizeL [a]).getLast? = some (pyToUpperCh a) := rfl
        rw [he] at hc
        cases hc
        rw [pyIsSpace_pyToUpperCh]
        exact h2 a rfl
      | cons b t' =>
        intro c hc
        have he : (pyCapitalizeL (a :: b :: t')).getLast? =
            (pyLowerL (b :: t')).getLast? := by
          show (pyToUpperCh a :: pyToLowerCh b :: pyLowerL t').getLast? = _
          rw [List.getLast?_cons_cons]
          rfl
        rw [he] at hc
        unfold pyLowerL at hc
        rw [List.getLast?_map] at hc
        obtain ⟨y, hy, rfl⟩ := Option.map_eq_some'.mp (Option.mem_def.mp hc)
        rw [pyIsSpace_pyToLowerCh]
        refine h2 y ?_
        rw [List.getLast?_cons_cons]
        exact hy

/-! String-level bridges. -/

theorem pyStrip_pyStrip (s : String) : pyStrip (pyStrip s) = pyStrip s :=
  String.ext (pyStripL_pyStripL s.data)

theorem pyLower_pyCapitalize (s : String) : pyLower (pyCapitalize s) = pyLower s :=
  String.ext (pyLowerL_pyCapitalizeL s.data)

theorem pyIsUpperStr_pyLower (s : String) : pyIsUpperStr (pyLower s) = false :=
  pyIsUpperStrL_pyLowerL s.data

theorem lookupAssoc_mem {m : List (String × String)} {s v : String}
    (h : lookupAssoc m s = some v) : ∃ k, (k, v) ∈ m := by
  induction m with
  | nil => cases h
  | cons p r ih =>
    obtain ⟨k', v'⟩ := p
    by_cases hk : s = k'
    · simp only [lookupAssoc, if_pos hk] at h
      cases h
      exact ⟨k', List.mem_cons_self _ _⟩
    · simp only [lookupAssoc, if_neg hk] at h
      obtain ⟨k, hk2⟩ := ih h
      exact ⟨k, List.mem_cons_of_mem _ hk2⟩

theorem alias_value_fixed {s v : String}
    (h : lookupAssoc SKILL_ALIAS_MAP s = some v) : normalize_token v = v := by
  obtain ⟨k, hk⟩ := lookupAssoc_mem h
  fin_cases hk <;> decide

theorem normalize_token_empty : normalize_token "" = "" := by decide

/-- Second application of `_normalize_token` to the output of
`normTokenCore` on an already-stripped non-empty token is the identity. -/
theorem normTokenCore_second_pass {s : String}
    (hne : ¬s = "") (hstr : pyStrip s = s)
    (hh : ∀ c ∈ s.data.head?, pyIsSpace c = false)
    (hl : ∀ c ∈ s.data.getLast?, pyIsSpace c = false) :
    normalize_token (normTokenCore s) = normTokenCore s := by
  cases hlk : lookupAssoc SKILL_ALIAS_MAP (pyLower s) with
  | some v =>
    have e2 : normTokenCore s = v := by simp only [normTokenCore, hlk]
    rw [e2]
    exact alias_value_fixed hlk
  | none =>
    by_cases hU : pyIsUpperStr (pyLower s) = true
    · have e2 : normTokenCore s = s := by
        simp only [normTokenCore, hlk]; rw [if_pos hU]
      rw [e2, normalize_token, if_neg (by rw [hstr]; exact hne), hstr]
      simp only [normTokenCore, hlk]
      rw [if_pos hU]
    · by_cases hA : pyAnyUpper s = true
      · have e2 : normTokenCore s = s := by
          simp only [normTokenCore, hlk]; rw [if_neg hU, if_pos hA]
        rw [e2, normalize_token, if_neg (by rw [hstr]; exact hne), hstr]
        simp only [normTokenCore, hlk]
        rw [if_neg hU, if_pos hA]
      · have e2 : normTokenCore s = pyCapitalize s := by
          simp only [normTokenCore, hlk]; rw [if_neg hU, if_neg hA]
        obtain ⟨c, rest, hsd⟩ : ∃ c rest, s.data = c :: rest := by
          cases hsd : s.data with
          | nil => exact absurd (String.ext (by rw [hsd])) hne
          | cons c r => exact ⟨c, r, rfl⟩
        have hstripv : pyStrip (pyCapitalize s) = pyCapitalize s :=
          String.ext (pyStripL_pyCapitalizeL hh hl)
        have hne2 : ¬pyCapitalize s = "" := by
          intro he
          rw [String.ext_iff] at he
          have he' : pyCapitalizeL s.data = [] := he
          rw [hsd] at he'
          exact List.cons_ne_nil _ _ he'
        rw [e2, normalize_token, if_neg (by rw [hstripv]; exact hne2), hstripv]
        simp only [normTokenCore]
        rw [pyLower_pyCapitalize, hlk, if_neg hU]
        by_cases hcl : pyIsLowerCh c = true
        · have hup : pyAnyUpper (pyCapitalize s) = true := by
            show (pyCapitalizeL s.data).any pyIsUpperCh = true
            rw [hsd]
            show (pyToUpperCh c :: pyLowerL rest).any pyIsUpperCh = true
            rw [List.any_cons, pyIsUpperCh_pyToUpperCh_of_lower hcl, Bool.true_or]
          rw [if_pos hup]
        · have hAfalse : ∀ x ∈ s.data, pyIsUpperCh x = false := by
            have hA' : pyAnyUpper s = false := Bool.eq_false_iff.mpr hA
            have := List.any_eq_false.mp hA'
            intro x hx
            exact Bool.eq_false_iff.mpr (this x hx)
          have hveq : pyCapitalize s = s := by
            apply String.ext
            show pyCapitalizeL s.data = s.data
            rw [hsd]
            show pyToUpperCh c :: pyLowerL rest = c :: rest
            rw [pyToUpperCh_of_not_lower (Bool.eq_false_iff.mpr hcl),
              pyLowerL_of_no_upper fun x hx =>
                hAfalse x (by rw [hsd]; exact List.mem_cons_of_mem _ hx)]
          rw [hveq, if_neg hA]
          exact hveq

/-- One application of `_normalize_token` reaches a fixed point. -/
theorem normalize_token_idem (t : String) :
    normalize_token (normalize_token t) = normalize_token t := by
  by_cases h0 : pyStrip t = ""
  · have e1 : normalize_token t = "" := by rw [normalize_token, if_pos h0, h0]
    rw [e1]
    exact normalize_token_empty
  · have e1 : normalize_token t = normTokenCore (pyStrip t) := by
      rw [normalize_token, if_neg h0]
    rw [e1]
    exact normTokenCore_second_pass h0 (pyStrip_pyStrip t)
      (pyStripL_head t.data) (pyStripL_getLast t.data)

/-! List-level facts about `normalize_list`. -/

theorem normListGo_out_props (l : List String) :
    ∀ seen : List String,
      (∀ x ∈ normListGo seen l,
        (∃ t, x = normalize_token t) ∧ x ≠ "" ∧ x ∉ seen) ∧
      (normListGo seen l).Nodup := by
  induction l with
  | nil => intro seen; exact ⟨fun x hx => absurd hx (List.not_mem_nil x), List.nodup_nil⟩
  | cons a r ih =>
    intro seen
    by_cases hc : normalize_token a ≠ "" ∧ normalize_token a ∉ seen
    · have he : normListGo seen (a :: r) =
          normalize_token a :: normListGo (normalize_token a :: seen) r := by
        simp only [normListGo]; rw [if_pos hc]
      rw [he]
      obtain ⟨ihm, ihn⟩ := ih (normalize_token a :: seen)
      constructor
      · intro x hx
        rcases List.mem_cons.mp hx with rfl | hx'
        · exact ⟨⟨a, rfl⟩, hc.1, hc.2⟩
        · obtain ⟨hex, hne, hns⟩ := ihm x hx'
          exact ⟨hex, hne, fun hmem => hns (List.mem_cons_of_mem _ hmem)⟩
      · refine List.nodup_cons.mpr ⟨fun hmem => ?_, ihn⟩
        obtain ⟨-, -, hns⟩ := ihm _ hmem
        exact hns (List.mem_cons_self _ _)
    · have he : normListGo seen (a :: r) = normListGo seen r := by
        simp only [normListGo]; rw [if_neg hc]
      rw [he]
      exact ih seen

theorem normListGo_fixed (l : List String) :
    ∀ seen : List String,
      (∀ x ∈ l, normalize_token x = x) → (∀ x ∈ l, x ≠ "") → l.Nodup →
      (∀ x ∈ l, x ∉ seen) → normListGo seen l = l := by
  induction l with
  | nil => intro seen _ _ _ _; rfl
  | cons a r ih =>
    intro seen hfix hne hnd hsn
    have ha : normalize_token a = a := hfix a (List.mem_cons_self _ _)
    have hcond : normalize_token a ≠ "" ∧ normalize_token a ∉ seen := by
      rw [ha]
      exact ⟨hne a (List.mem_cons_self _ _), hsn a (List.mem_cons_self _ _)⟩
    simp only [normListGo]
    rw [if_pos hcond, ha]
    congr 1
    refine ih (a :: seen) (fun x hx => hfix x (List.mem_cons_of_mem _ hx))
      (fun x hx => hne x (List.mem_cons_of_mem _ hx))
      (List.nodup_cons.mp hnd).2 fun x hx => ?_
    intro hmem
    rcases List.mem_cons.mp hmem with rfl | hmem'
    · exact (List.nodup_cons.mp hnd).1 hx
    · exact hsn x (List.mem_cons_of_mem _ hx) hmem'

/-- C4: `normalize_list` is idempotent — every output token is a fixed
point of `_normalize_token`, the output is duplicate-free, and so a second
pass changes nothing. -/
theorem normalize_list_idempotent (L : List String) :
    normalize_list (normalize_list L) = normalize_list L := by
  obtain ⟨hmem, hnd⟩ := normListGo_out_props L []
  refine normListGo_fixed (normListGo [] L) [] (fun x hx => ?_)
    (fun x hx => (hmem x hx).2.1) hnd (fun x _ => List.not_mem_nil x)
  obtain ⟨⟨t, rfl⟩, -, -⟩ := hmem x hx
  exact normalize_token_idem t

/-- C8: `_normalize_token` agrees everywhere with the specification's
description (trim; blank → `""`; case-insensitive alias hit → canonical
value verbatim; entirely-uppercase → unchanged; any uppercase letter →
unchanged; otherwise capitalize only the first letter), and on the listed
examples any casing of `"py"` maps to `"Python"`, `"JS"`/`"js"` to
`"JavaScript"`, and `"sql"` to `"SQL"`. -/
theorem normalize_token_matches_spec :
    (∀ t : String, normalize_token t = normTokenSpec t) ∧
    normalize_token "py" = "Python" ∧ normalize_token "Py" = "Python" ∧
    normalize_token "PY" = "Python" ∧ normalize_token "js" = "JavaScript" ∧
    normalize_token "JS" = "JavaScript" ∧ normalize_token "sql" = "SQL" := by
  refine ⟨fun t => ?_, by decide, by decide, by decide, by decide, by decide, by decide⟩
  by_cases h0 : pyStrip t = ""
  · rw [normalize_token, normTokenSpec, if_pos h0, if_pos h0, h0]
  · rw [normalize_token, normTokenSpec, if_neg h0, if_neg h0]
    cases hlk : lookupAssoc SKILL_ALIAS_MAP (pyLower (pyStrip t)) with
    | some v => simp only [normTokenCore, hlk]
    | none =>
      simp only [normTokenCore, hlk]
      have hdead : pyIsUpperStr (pyLower (pyStrip t)) = false :=
        pyIsUpperStr_pyLower (pyStrip t)
      rw [if_neg (by rw [hdead]; exact Bool.false_ne_true)]
      by_cases hU : pyIsUpperStr (pyStrip t) = true
      · have hA : pyAnyUpper (pyStrip t) = true := pyIsUpperStrL_any_upper hU
        rw [if_pos hA, if_pos hU]
      · rw [if_neg hU]
        by_cases hA : pyAnyUpper (pyStrip t) = true
        · rw [if_pos hA, if_pos hA]
        · rw [if_neg hA, if_neg hA]
          apply String.ext
          show pyCapitalizeL (pyStrip t).data = pyCapFirstL (pyStrip t).data
          cases hsd : (pyStrip t).data with
          | nil => rfl
          | cons c rest =>
            show pyToUpperCh c :: pyLowerL rest = pyToUpperCh c :: rest
            have hA' : pyAnyUpper (pyStrip t) = false := Bool.eq_false_iff.mpr hA
            have hall := List.any_eq_false.mp hA'
            rw [pyLowerL_of_no_upper fun x hx => Bool.eq_false_iff.mpr
              (hall x (by rw [hsd]; exact List.mem_cons_of_mem _ hx))]

/-! ### C1 — scorer bounds and float truncation -/

theorem bitsAux_spec :
    ∀ (f n : ℕ), 1 ≤ n → n ≤ f → 2 ^ (bitsAux f n - 1) ≤ n ∧ n < 2 ^ bitsAux f n := by
  intro f
  induction f with
  | zero => intro n h1 h2; omega
  | succ f ih =>
    intro n h1 h2
    by_cases hn : n ≤ 1
    · have hn1 : n = 1 := by omega
      subst hn1
      have e : bitsAux (f + 1) 1 = 1 := by simp [bitsAux]
      rw [e]
      norm_num
    · have e : bitsAux (f + 1) n = bitsAux f (n / 2) + 1 := by
        simp only [bitsAux]
        rw [if_neg hn]
      have h12 : 1 ≤ n / 2 := by omega
      have hf : n / 2 ≤ f := by omega
      obtain ⟨ih1, ih2⟩ := ih (n / 2) h12 hf
      rw [e]
      have hb1 : 1 ≤ bitsAux f (n / 2) := by
        by_contra hb
        push_neg at hb
        have hb0 : bitsAux f (n / 2) = 0 := by omega
        rw [hb0] at ih2
        omega
      constructor
      · have e2 : 2 ^ (bitsAux f (n / 2) + 1 - 1) = 2 * 2 ^ (bitsAux f (n / 2) - 1) := by
          rw [Nat.succ_sub_one]
          conv_lhs => rw [show bitsAux f (n / 2) = (bitsAux f (n / 2) - 1) + 1 by omega]
          rw [pow_succ]
          ring
        rw [e2]
        omega
      · have e2 : 2 ^ (bitsAux f (n / 2) + 1) = 2 * 2 ^ bitsAux f (n / 2) := by
          rw [pow_succ]
          ring
        omega

theorem nbits_spec {n : ℕ} (h : 1 ≤ n) : 2 ^ (nbits n - 1) ≤ n ∧ n < 2 ^ nbits n :=
  bitsAux_spec n n h (le_refl n)

theorem nbits_pos {n : ℕ} (h : 1 ≤ n) : 1 ≤ nbits n := by
  obtain ⟨-, h2⟩ := nbits_spec h
  by_contra hc
  push_neg at hc
  have h0 : nbits n = 0 := by omega
  rw [h0] at h2
  omega

theorem expo_spec {q : ℚ} (hq : 0 < q) :
    (2:ℚ) ^ expo q ≤ q ∧ q < 2 ^ (expo q + 1) := by
  have hnum : 0 < q.num := Rat.num_pos.mpr hq
  have ha1 : 1 ≤ q.num.natAbs := by omega
  have hb1 : 1 ≤ q.den := q.den_pos
  obtain ⟨hA1, hA2⟩ := nbits_spec ha1
  obtain ⟨hB1, hB2⟩ := nbits_spec hb1
  have hApos : 1 ≤ nbits q.num.natAbs := nbits_pos ha1
  have hBpos : 1 ≤ nbits q.den := nbits_pos hb1
  set A := nbits q.num.natAbs with hA_def
  set B := nbits q.den with hB_def
  have hnum_cast : ((q.num.natAbs : ℕ) : ℚ) = (q.num : ℚ) := by
    rw [Int.cast_natAbs, abs_of_pos (by exact_mod_cast hnum)]
  have hden_pos : (0:ℚ) < (q.den : ℚ) := by exact_mod_cast q.den_pos
  have hpow_nat : ∀ k : ℕ, ((2 ^ k : ℕ) : ℚ) = (2:ℚ) ^ (k : ℤ) := by
    intro k
    push_cast
    rw [zpow_natCast]
  have hcast_sub : ∀ k : ℕ, 1 ≤ k → ((k - 1 : ℕ) : ℤ) = (k : ℤ) - 1 := by
    intro k hk
    omega
  have hN_up : (q.num : ℚ) < (2:ℚ) ^ (A : ℤ) := by
    rw [← hnum_cast, ← hpow_nat A]
    exact_mod_cast hA2
  have hN_low : (2:ℚ) ^ ((A : ℤ) - 1) ≤ (q.num : ℚ) := by
    rw [← hnum_cast, ← hcast_sub A hApos, ← hpow_nat (A - 1)]
    exact_mod_cast hA1
  have hD_up : ((q.den : ℕ) : ℚ) < (2:ℚ) ^ (B : ℤ) := by
    rw [← hpow_nat B]
    exact_mod_cast hB2
  have hD_low : (2:ℚ) ^ ((B : ℤ) - 1) ≤ ((q.den : ℕ) : ℚ) := by
    rw [← hcast_sub B hBpos, ← hpow_nat (B - 1)]
    exact_mod_cast hB1
  have hq_up : q < 2 ^ ((A : ℤ) - B + 1) := by
    rw [← Rat.num_div_den q, div_lt_iff₀ hden_pos]
    calc (q.num : ℚ) < 2 ^ (A : ℤ) := hN_up
    _ = 2 ^ ((A : ℤ) - B + 1) * 2 ^ ((B : ℤ) - 1) := by
        rw [← zpow_add₀ (two_ne_zero)]
        congr 1
        ring
    _ ≤ 2 ^ ((A : ℤ) - B + 1) * (q.den : ℚ) :=
        mul_le_mul_of_nonneg_left hD_low (le_of_lt (zpow_pos (by norm_num) _))
  have hq_low : 2 ^ ((A : ℤ) - B - 1) < q := by
    rw [← Rat.num_div_den q, lt_div_iff₀ hden_pos]
    calc 2 ^ ((A : ℤ) - B - 1) * (q.den : ℚ)
        < 2 ^ ((A : ℤ) - B - 1) * 2 ^ (B : ℤ) :=
        mul_lt_mul_of_pos_left hD_up (zpow_pos (by norm_num) _)
    _ = 2 ^ ((A : ℤ) - 1) := by
        rw [← zpow_add₀ two_ne_zero]
        congr 1
        ring
    _ ≤ (q.num : ℚ) := hN_low
  have he : expo q = if q < 2 ^ ((A : ℤ) - B) then (A : ℤ) - B - 1 else (A : ℤ) - B := by
    simp only [expo]
  by_cases hlt : q < 2 ^ ((A : ℤ) - B)
  · rw [he, if_pos hlt]
    refine ⟨le_of_lt hq_low, ?_⟩
    have e2 : (A : ℤ) - B - 1 + 1 = (A : ℤ) - B := by ring
    rw [e2]
    exact hlt
  · rw [he, if_neg hlt]
    exact ⟨le_of_not_lt hlt, hq_up⟩

theorem roundNE_nonneg {x : ℚ} (hx : 0 ≤ x) : 0 ≤ roundNE x := by
  unfold roundNE
  have h0 : 0 ≤ ⌊x⌋ := Int.floor_nonneg.mpr hx
  split_ifs <;> omega

theorem roundNE_le_intCast {x : ℚ} {N : ℤ} (h : x ≤ (N : ℚ)) : roundNE x ≤ N := by
  have hfl : ⌊x⌋ ≤ N := by
    calc ⌊x⌋ ≤ ⌊(N : ℚ)⌋ := Int.floor_le_floor h
    _ = N := Int.floor_intCast N
  unfold roundNE
  split_ifs with h1 h2 h3
  · exact hfl
  · by_contra hc
    push_neg at hc
    have hfN : ⌊x⌋ = N := by omega
    rw [hfN] at h2
    linarith
  · exact hfl
  · by_contra hc
    push_neg at hc
    have hfN : ⌊x⌋ = N := by omega
    rw [hfN] at h1
    linarith

theorem fpPos_nonneg {q : ℚ} (hq : 0 ≤ q) : 0 ≤ fpPos q := by
  unfold fpPos
  have hpow : (0:ℚ) < 2 ^ ulp q := zpow_pos (by norm_num) _
  apply mul_nonneg _ (le_of_lt hpow)
  exact_mod_cast roundNE_nonneg (div_nonneg hq (le_of_lt hpow))

theorem fpPos_le_mul {q : ℚ} {N : ℤ}
    (h : q ≤ (N : ℚ) * 2 ^ ulp q) : fpPos q ≤ (N : ℚ) * 2 ^ ulp q := by
  unfold fpPos
  have hpow : (0:ℚ) < 2 ^ ulp q := zpow_pos (by norm_num) _
  have hx : q / 2 ^ ulp q ≤ (N : ℚ) := by
    rw [div_le_iff₀ hpow]
    exact h
  have hcast : ((roundNE (q / 2 ^ ulp q) : ℤ) : ℚ) ≤ (N : ℚ) := by
    exact_mod_cast roundNE_le_intCast hx
  exact mul_le_mul_of_nonneg_right hcast (le_of_lt hpow)

theorem fpPos_le_zpow {q : ℚ} {k : ℤ} (h1 : q < 2 ^ k) (h2 : ulp q ≤ k) :
    fpPos q ≤ 2 ^ k := by
  have he : (2:ℚ) ^ k = ((2 ^ (k - ulp q).toNat : ℤ) : ℚ) * 2 ^ ulp q := by
    push_cast
    rw [← zpow_natCast (2:ℚ) (k - ulp q).toNat, Int.toNat_of_nonneg (by omega),
      ← zpow_add₀ two_ne_zero, sub_add_cancel]
  rw [he]
  exact fpPos_le_mul (by rw [← he]; exact le_of_lt h1)

theorem fpRound_nonneg {q : ℚ} (hq : 0 ≤ q) : 0 ≤ fpRound q := by
  unfold fpRound
  split_ifs with h1 h2
  · exact fpPos_nonneg (le_of_lt h1)
  · linarith
  · exact le_refl 0

theorem fpRound_le_one {q : ℚ} (h0 : 0 ≤ q) (h1 : q ≤ 1) : fpRound q ≤ 1 := by
  unfold fpRound
  split_ifs with hp hn
  · rcases lt_or_eq_of_le h1 with hlt | rfl
    · obtain ⟨hel, heh⟩ := expo_spec hp
      have he_neg : expo q ≤ -1 := by
        by_contra hc
        push_neg at hc
        have h2 : (1:ℚ) ≤ 2 ^ expo q := one_le_zpow₀ one_le_two (by omega)
        linarith
      by_cases hsub : -1075 ≤ expo q
      · have hk : ulp q ≤ expo q + 1 := by unfold ulp; omega
        calc fpPos q ≤ 2 ^ (expo q + 1) := fpPos_le_zpow heh hk
        _ ≤ 2 ^ (0:ℤ) := zpow_le_zpow_right₀ one_le_two (by omega)
        _ = 1 := by norm_num
      · have hk : ulp q ≤ (0:ℤ) := by unfold ulp; omega
        have hq0 : q < 2 ^ (0:ℤ) := by
          rw [zpow_zero]
          exact hlt
        calc fpPos q ≤ 2 ^ (0:ℤ) := fpPos_le_zpow hq0 hk
        _ = 1 := by norm_num
    · have : fpPos 1 = 1 := by decide
      rw [this]
  · linarith
  · norm_num

theorem fpRound_le_100 {q : ℚ} (h0 : 0 ≤ q) (h1 : q ≤ 100) : fpRound q ≤ 100 := by
  unfold fpRound
  split_ifs with hp hn
  · obtain ⟨hel, heh⟩ := expo_spec hp
    have he7 : expo q ≤ 6 := by
      by_contra hc
      push_neg at hc
      have h2 : (2:ℚ) ^ (7:ℤ) ≤ 2 ^ expo q := zpow_le_zpow_right₀ one_le_two (by omega)
      have h3 : ((128:ℚ)) ≤ 2 ^ expo q := by
        norm_num at h2
        exact_mod_cast h2
      linarith
    by_cases he6 : expo q = 6
    · have hu : ulp q = -46 := by
        unfold ulp
        rw [he6]
        decide
      have hN : ((100 * 2 ^ 46 : ℤ) : ℚ) * 2 ^ ulp q = 100 := by
        rw [hu]
        decide
      have := fpPos_le_mul (N := 100 * 2 ^ 46) (by rw [hN]; exact h1)
      rw [hN] at this
      exact this
    · have he5 : expo q ≤ 5 := by omega
      by_cases hsub : -1075 ≤ expo q
      · have hk : ulp q ≤ expo q + 1 := by unfold ulp; omega
        calc fpPos q ≤ 2 ^ (expo q + 1) := fpPos_le_zpow heh hk
        _ ≤ 2 ^ (6:ℤ) := zpow_le_zpow_right₀ one_le_two (by omega)
        _ ≤ 100 := by norm_num
      · have hk : ulp q ≤ (0:ℤ) := by unfold ulp; omega
        have hq0 : q < 2 ^ (0:ℤ) := by
          have h2 : (2:ℚ) ^ (expo q + 1) ≤ 2 ^ (0:ℤ) :=
            zpow_le_zpow_right₀ one_le_two (by omega)
          linarith
        calc fpPos q ≤ 2 ^ (0:ℤ) := fpPos_le_zpow hq0 hk
        _ ≤ 100 := by norm_num
  · linarith
  · norm_num

theorem scoreValue_bounds (m n : ℕ) (hmn : m ≤ max 1 n) :
    0 ≤ scoreValue m n ∧ scoreValue m n ≤ 100 := by
  unfold scoreValue pyInt
  have hden : (0:ℚ) < ((max 1 n : ℕ) : ℚ) := by
    have : 1 ≤ max 1 n := le_max_left _ _
    exact_mod_cast lt_of_lt_of_le zero_lt_one (by exact_mod_cast this)
  have hq0 : 0 ≤ (m : ℚ) / ((max 1 n : ℕ) : ℚ) :=
    div_nonneg (by positivity) (le_of_lt hden)
  have hq1 : (m : ℚ) / ((max 1 n : ℕ) : ℚ) ≤ 1 := by
    rw [div_le_one hden]
    exact_mod_cast hmn
  have hr1 : 0 ≤ fpRound ((m : ℚ) / ((max 1 n : ℕ) : ℚ)) := fpRound_nonneg hq0
  have hr2 : fpRound ((m : ℚ) / ((max 1 n : ℕ) : ℚ)) ≤ 1 := fpRound_le_one hq0 hq1
  have hm0 : 0 ≤ fpRound ((m : ℚ) / ((max 1 n : ℕ) : ℚ)) * 100 := by linarith
  have hm1 : fpRound ((m : ℚ) / ((max 1 n : ℕ) : ℚ)) * 100 ≤ 100 := by linarith
  have hf0 : 0 ≤ fpRound (fpRound ((m : ℚ) / ((max 1 n : ℕ) : ℚ)) * 100) :=
    fpRound_nonneg hm0
  have hf1 : fpRound (fpRound ((m : ℚ) / ((max 1 n : ℕ) : ℚ)) * 100) ≤ 100 :=
    fpRound_le_100 hm0 hm1
  rw [if_neg (not_lt.mpr hf0)]
  refine ⟨Int.floor_nonneg.mpr hf0, ?_⟩
  calc ⌊fpRound (fpRound ((m : ℚ) / ((max 1 n : ℕ) : ℚ)) * 100)⌋
      ≤ ⌊(100:ℚ)⌋ := Int.floor_le_floor hf1
  _ = 100 := by norm_num

/-- C1 counterexample: on a job matching exactly 29 of 50 candidate
technologies, the scorer's float computation `int(29 / 50 * 100)` attaches
the score 57, while the claimed exact value `floor(29 / max(1, 50) * 100)`
is 58 — the binary64 rounding of `29 / 50` falls just below `0.58`, so the
truncation lands one below the exact floor. -/
theorem score_float_vs_exact_floor :
    c1Tech.length = 50 ∧
    (matchedSkills c1Job c1Tech).length = 29 ∧
    (score_job_against_tech_stack c1Job c1Tech).score = 57 ∧
    (⌊((matchedSkills c1Job c1Tech).length : ℚ) /
        ((max 1 c1Tech.length : ℕ) : ℚ) * 100⌋ : ℤ) = 58 := by
  refine ⟨by decide, by decide, by decide, by decide⟩

/-- C1 (amended): the score the Scorer attaches is the Python-float
evaluation `int(len(matched) / max(1, len(tech)) * 100)` — which can land
one below the exact `floor` (e.g. 57 instead of 58 at 29 matched of 50) —
but the claimed consequences hold unconditionally: `0 ≤ score ≤ 100` for
every job and candidate technology list, and the score is 0 (with no
division error) when the candidate technology list is empty. -/
theorem score_in_bounds_and_empty_tech_zero (j : ScoreJob) (tech : List String) :
    (0 ≤ (score_job_against_tech_stack j tech).score ∧
      (score_job_against_tech_stack j tech).score ≤ 100) ∧
    (tech = [] → (score_job_against_tech_stack j tech).score = 0) := by
  constructor
  · have hm : (matchedSkills j tech).length ≤ max 1 tech.length := by
      have h1 : (matchedSkills j tech).length ≤ tech.length :=
        List.length_filter_le _ _
      exact le_trans h1 (le_max_right _ _)
    exact scoreValue_bounds _ _ hm
  · rintro rfl
    show scoreValue (matchedSkills j []).length 0 = 0
    show scoreValue 0 0 = 0
    decide

/-- Witness for the amended C1 theorem at a concrete job and the empty
technology list. -/
theorem score_in_bounds_and_empty_tech_zero_witness :
    ((0 ≤ (score_job_against_tech_stack ⟨some "x", none, none⟩ []).score ∧
      (score_job_against_tech_stack ⟨some "x", none, none⟩ []).score ≤ 100) ∧
     (([] : List String) = [] →
      (score_job_against_tech_stack ⟨some "x", none, none⟩ []).score = 0)) :=
  score_in_bounds_and_empty_tech_zero ⟨some "x", none, none⟩ []

end JobsAI
